import Mathlib

set_option maxRecDepth 4000

/-!
Verification of the execution core of the regex matching library
(instruction model, prefix-literal machinery, bounded backtracker,
NFA simulator, and the engine dispatcher), as a shallow embedding of
the Rust sources in src/.

Machine integers are modelled as Nat; bytes are Nats below 256; the
haystack is a List Nat of bytes.  Fallible operations (Rust panics,
out-of-range indexing, `unimplemented!()`) are modelled with Option,
where `none` stands for a panic.  Loops whose termination is not
structural take a fuel parameter; all theorems about a fueled run are
conditioned on the run returning `some`.
-/

/-- The set of zero-width match instructions, from src/inst.rs `EmptyLook`. -/
inductive EmptyLook where
  | startLine
  | endLine
  | startText
  | endText
  | wordBoundary
  | notWordBoundary
  deriving DecidableEq, Repr

/-- Instruction codes of a regex program, from src/inst.rs `Inst`.
`lo`/`hi` are the `start`/`end` fields of `InstBytes` (renamed because
`end` is a Lean keyword).  Characters are Unicode scalar values as Nat. -/
inductive Inst where
  | matchI
  | save (slot goto : Nat)
  | split (goto1 goto2 : Nat)
  | emptyLook (look : EmptyLook) (goto : Nat)
  | char (c : Nat) (goto : Nat)
  | ranges (rs : List (Nat × Nat)) (goto : Nat)
  | bytes (lo hi : Nat) (goto : Nat)
  deriving DecidableEq, Repr

/-- `InstBytes::matches` from src/inst.rs: inclusive byte-range test. -/
def instBytesMatches (lo hi b : Nat) : Bool :=
  decide (lo ≤ b) && decide (b ≤ hi)

/-- Modelled from the spec: the word-character predicate used by word
boundary assertions (`[A-Za-z0-9_]`; the Unicode extension lives in the
missing char.rs and is irrelevant to every theorem below because both
engines share this single definition). -/
def isWordChar (c : Nat) : Bool :=
  (decide (65 ≤ c) && decide (c ≤ 90)) ||
  (decide (97 ≤ c) && decide (c ≤ 122)) ||
  (decide (48 ≤ c) && decide (c ≤ 57)) ||
  decide (c = 95)

/-- `InstEmptyLook::matches` from src/inst.rs, over the option-like `Char`
(`none` denotes an absent character). -/
def emptyLookMatchesPair (look : EmptyLook) (c1 c2 : Option Nat) : Bool :=
  match look with
  | .startLine => c1.isNone || decide (c1 = some 10)
  | .endLine => c2.isNone || decide (c2 = some 10)
  | .startText => c1.isNone
  | .endText => c2.isNone
  | .wordBoundary =>
      xor (c1.map isWordChar |>.getD false) (c2.map isWordChar |>.getD false)
  | .notWordBoundary =>
      ! xor (c1.map isWordChar |>.getD false) (c2.map isWordChar |>.getD false)

/-- Modelled from the spec (char_utf8.rs is not in src/): standard UTF-8
decoding of the character starting at byte offset `pos`, best effort;
invalid or truncated UTF-8 yields `none` (an absent character), matching
the spec's contract for the byte-mode input reader. -/
def utf8DecodeNext (input : List Nat) (pos : Nat) : Option Nat :=
  match input.get? pos with
  | none => none
  | some b0 =>
    if b0 < 0x80 then some b0
    else if b0 < 0xC0 then none
    else if b0 < 0xE0 then
      match input.get? (pos + 1) with
      | some b1 =>
        if 0x80 ≤ b1 ∧ b1 < 0xC0 then some ((b0 - 0xC0) * 64 + (b1 - 0x80))
        else none
      | none => none
    else if b0 < 0xF0 then
      match input.get? (pos + 1), input.get? (pos + 2) with
      | some b1, some b2 =>
        if (0x80 ≤ b1 ∧ b1 < 0xC0) ∧ (0x80 ≤ b2 ∧ b2 < 0xC0) then
          some (((b0 - 0xE0) * 64 + (b1 - 0x80)) * 64 + (b2 - 0x80))
        else none
      | _, _ => none
    else if b0 < 0xF8 then
      match input.get? (pos + 1), input.get? (pos + 2), input.get? (pos + 3) with
      | some b1, some b2, some b3 =>
        if (0x80 ≤ b1 ∧ b1 < 0xC0) ∧ (0x80 ≤ b2 ∧ b2 < 0xC0) ∧
           (0x80 ≤ b3 ∧ b3 < 0xC0) then
          some ((((b0 - 0xF0) * 64 + (b1 - 0x80)) * 64 + (b2 - 0x80)) * 64
                + (b3 - 0x80))
        else none
      | _, _, _ => none
    else none

/-- Modelled from the spec: decode the character ending just before `pos`
(the `previous_char` of the byte input reader), by trying the candidate
start offsets `pos - 1` … `pos - 4`. -/
def utf8DecodePrev (input : List Nat) (pos : Nat) : Option Nat :=
  if pos = 0 then none
  else if (input.getD (pos - 1) 0) < 0x80 then utf8DecodeNext input (pos - 1)
  else if 2 ≤ pos ∧ 0xC0 ≤ input.getD (pos - 2) 0 then utf8DecodeNext input (pos - 2)
  else if 3 ≤ pos ∧ 0xC0 ≤ input.getD (pos - 3) 0 then utf8DecodeNext input (pos - 3)
  else if 4 ≤ pos ∧ 0xC0 ≤ input.getD (pos - 4) 0 then utf8DecodeNext input (pos - 4)
  else none

/-- The zero-width assertion test both engines perform at a byte position:
`inst.matches(input.previous_char(at), input.next_char(at))`. -/
def emptyLookAt (look : EmptyLook) (input : List Nat) (pos : Nat) : Bool :=
  emptyLookMatchesPair look (utf8DecodePrev input pos) (utf8DecodeNext input pos)

/-! ## Prefix literal machinery, src/literals.rs -/

/-- `AlternateLiterals` from src/literals.rs. -/
structure AlternateLiterals where
  at_match : Bool
  literals : List (List Nat)
  deriving DecidableEq, Repr

/-- `AlternateLiterals::empty`. -/
def AlternateLiterals.emptyA : AlternateLiterals :=
  { at_match := false, literals := [] }

/-- `AlternateLiterals::is_empty`. -/
def AlternateLiterals.isEmptyA (a : AlternateLiterals) : Bool :=
  a.literals.isEmpty

/-- `AlternateLiterals::is_single_byte`. -/
def AlternateLiterals.isSingleByte (a : AlternateLiterals) : Bool :=
  decide (a.literals.length = 1) && decide ((a.literals.headD []).length = 1)

/-- `AlternateLiterals::all_single_bytes`. -/
def AlternateLiterals.allSingleBytes (a : AlternateLiterals) : Bool :=
  decide (1 ≤ a.literals.length) && a.literals.all (fun s => decide (s.length = 1))

/-- `AlternateLiterals::is_one_literal`. -/
def AlternateLiterals.isOneLiteral (a : AlternateLiterals) : Bool :=
  decide (a.literals.length = 1)

/-- `AlternateLiterals::num_bytes`. -/
def AlternateLiterals.numBytes (a : AlternateLiterals) : Nat :=
  (a.literals.map List.length).foldl (· + ·) 0

/-- `AlternateLiterals::add_alternates`. -/
def AlternateLiterals.addAlternates (a alts : AlternateLiterals) : AlternateLiterals :=
  { at_match := a.at_match && alts.at_match,
    literals := a.literals ++ alts.literals }

/-- Modelled from the spec (char_utf8.rs is not in src/): standard UTF-8
encoding of a Unicode scalar value. -/
def encodeUtf8 (c : Nat) : List Nat :=
  if c < 0x80 then [c]
  else if c < 0x800 then [0xC0 + c / 64, 0x80 + c % 64]
  else if c < 0x10000 then
    [0xE0 + c / 4096, 0x80 + (c / 64) % 64, 0x80 + c % 64]
  else
    [0xF0 + c / 262144, 0x80 + (c / 4096) % 64, 0x80 + (c / 64) % 64,
     0x80 + c % 64]

/-- `AlternateLiterals::add_literal_char`: extend every alternate with the
UTF-8 encoding of `c`. -/
def AlternateLiterals.addLiteralChar (a : AlternateLiterals) (c : Nat) :
    AlternateLiterals :=
  { a with literals := a.literals.map (fun alt => alt ++ encodeUtf8 c) }

/-- `AlternateLiterals::add_literal_char_ranges`: Cartesian expansion of the
alternates by every character of every range (range outer, alternate inner,
matching the source's push order). -/
def AlternateLiterals.addLiteralCharRanges (a : AlternateLiterals)
    (rs : List (Nat × Nat)) : AlternateLiterals :=
  { a with
    literals :=
      rs.flatMap (fun r =>
        (List.range (r.2 + 1 - r.1)).flatMap (fun k =>
          a.literals.map (fun alt => alt ++ encodeUtf8 (r.1 + k)))) }

/-- `AlternateLiterals::add_literal_byte_range`. -/
def AlternateLiterals.addLiteralByteRange (a : AlternateLiterals)
    (lo hi : Nat) : AlternateLiterals :=
  { a with
    literals :=
      (List.range (hi + 1 - lo)).flatMap (fun k =>
        a.literals.map (fun alt => alt ++ [lo + k])) }

/-! ## Instruction sequence helpers, src/inst.rs `Insts` -/

/-- `Insts::skip`: follow `Save` chains from `pc` to the first non-`Save`
instruction.  A `Save` cycle would loop forever in the source; `none`
models that divergence, and `none` also models an out-of-range `pc`
(an index panic in the source). -/
def instsSkip (insts : List Inst) : Nat → Nat → Option Nat
  | 0, _ => none
  | fuel + 1, pc =>
    match insts.get? pc with
    | some (.save _ g) => instsSkip insts fuel g
    | some _ => some pc
    | none => none

/-- `Insts::leads_to_match`. -/
def leadsToMatch (insts : List Inst) (fuel pc : Nat) : Bool :=
  match instsSkip insts fuel pc with
  | some pc2 =>
    match insts.get? pc2 with
    | some .matchI => true
    | _ => false
  | none => false

/-- `Insts::anchored_begin` / the assignment in `Program::new`:
the program is anchored at the beginning iff instruction 1 is
`EmptyLook(StartText)`. -/
def anchoredBeginOf (insts : List Inst) : Bool :=
  match insts.get? 1 with
  | some (.emptyLook .startText _) => true
  | _ => false

/-! ## SingleSearch (Boyer-Moore-Horspool), src/literals.rs -/

/-- `SingleSearch` from src/literals.rs. -/
structure SingleSearch where
  pat : List Nat
  shift : List Nat
  deriving DecidableEq, Repr

/-- The shift-table construction loop of `SingleSearch::new`:
`for i in 0..(pat.len() - 1) { shift[pat[i]] = pat.len() - i - 1 }`. -/
def singleSearchShift (pat : List Nat) : List Nat :=
  (List.range (pat.length - 1)).foldl
    (fun shift i => shift.set (pat.getD i 0) (pat.length - i - 1))
    (List.replicate 256 pat.length)

/-- `SingleSearch::new` (the `assert!(pat.len() >= 1)` is reflected in the
hypotheses of the theorems below). -/
def SingleSearch.new (pat : List Nat) : SingleSearch :=
  { pat := pat, shift := singleSearchShift pat }

/-! ## Literal matcher classification, src/literals.rs -/

/-- `LiteralMatcher` from src/literals.rs.  The two Aho-Corasick automata
are external to this repository (the aho_corasick crate); they are
represented by the pattern list they are built from, which is the only
data the functions verified here consult (`patterns()`, `pattern(0)`,
`len()`). -/
inductive LiteralMatcher where
  | emptyM
  | byte (b : Nat)
  | bytesM (chars : List Nat) (sparse : List Bool)
  | single (s : SingleSearch)
  | fullAutomaton (pats : List (List Nat))
  | automaton (pats : List (List Nat))
  deriving DecidableEq, Repr

/-- `Literals` from src/literals.rs. -/
structure Literals where
  at_match : Bool
  matcher : LiteralMatcher
  deriving DecidableEq, Repr

/-- `Literals::empty`. -/
def Literals.emptyL : Literals :=
  { at_match := false, matcher := .emptyM }

/-- `Literals::len`: the number of prefixes in the machine. -/
def Literals.lenL (l : Literals) : Nat :=
  match l.matcher with
  | .emptyM => 0
  | .byte _ => 1
  | .bytesM chars _ => chars.length
  | .single _ => 1
  | .fullAutomaton pats => pats.length
  | .automaton pats => pats.length

/-- `Literals::is_empty`. -/
def Literals.isEmptyL (l : Literals) : Bool :=
  decide (l.lenL = 0)

/-- `Literals::at_match`. -/
def Literals.atMatch (l : Literals) : Bool :=
  l.at_match

/-- `Literals::preserves_priority` from src/literals.rs.  For the two
Aho-Corasick shapes the source evaluates
`aut.patterns().iter().all(|p| p.len() == aut.pattern(0).len())`;
on an empty pattern list `all` is vacuously true and the closure
(and hence `pattern(0)`) is never evaluated, which `List.all` mirrors. -/
def Literals.preservesPriority (l : Literals) : Bool :=
  match l.matcher with
  | .emptyM => true
  | .byte _ => true
  | .bytesM _ _ => true
  | .single _ => true
  | .fullAutomaton pats =>
      pats.all (fun p => decide (p.length = (pats.headD []).length))
  | .automaton pats =>
      pats.all (fun p => decide (p.length = (pats.headD []).length))

/-- `LiteralMatcher::new` from src/literals.rs: classification of the
accumulated alternates into one of the five search shapes.  The sparse
table construction loop for the `Bytes` shape is written as a fold. -/
def LiteralMatcher.newM (alts : AlternateLiterals) : LiteralMatcher :=
  if alts.isEmptyA then .emptyM
  else if alts.isSingleByte then .byte ((alts.literals.headD []).headD 0)
  else if alts.allSingleBytes then
    .bytesM (alts.literals.map (fun lit => lit.headD 0))
      (alts.literals.foldl (fun set lit => set.set (lit.headD 0) true)
        (List.replicate 256 false))
  else if alts.isOneLiteral then
    .single (SingleSearch.new (alts.literals.getLastD []))
  else if alts.numBytes ≤ 250 then .fullAutomaton alts.literals
  else .automaton alts.literals

/-- `AlternateLiterals::into_matcher`. -/
def AlternateLiterals.intoMatcher (alts : AlternateLiterals) : Literals :=
  if alts.literals.isEmpty then Literals.emptyL
  else { at_match := alts.at_match, matcher := LiteralMatcher.newM alts }

/-! ## Program and dispatcher, src/program.rs -/

/-- `MatchEngine` from src/program.rs. -/
inductive MatchEngine where
  | backtrack
  | nfa
  | literals
  deriving DecidableEq, Repr

/-- The fields of `Program` (src/program.rs) consulted by the matching
engines and the dispatcher.  The caches, the pattern string, and the
capture names play no role in any verified function and are omitted. -/
structure Program where
  insts : List Inst
  prefixes : Literals
  anchored_begin : Bool
  engine : Option MatchEngine
  deriving Repr

/-- `Backtrack::should_exec` from src/backtrack.rs:
`prog.insts.len() <= MAX_PROG_SIZE && input.len() <= MAX_INPUT_SIZE`
with `MAX_PROG_SIZE = 100` and `MAX_INPUT_SIZE = 256 * (1 << 10)`. -/
def shouldExec (prog : Program) (inputLen : Nat) : Bool :=
  decide (prog.insts.length ≤ 100) && decide (inputLen ≤ 256 * 1024)

/-- `Program::choose_engine` from src/program.rs. -/
def chooseEngine (prog : Program) (capLen inputLen : Nat) : MatchEngine :=
  match prog.engine with
  | some e => e
  | none =>
    if decide (capLen ≤ 2) && prog.prefixes.atMatch
       && prog.prefixes.preservesPriority then
      .literals
    else if shouldExec prog inputLen then .backtrack
    else .nfa

/-- C2: when no engine override is set, `Program::choose_engine` selects the
Literals engine iff `caps.len() <= 2` and `prefixes.at_match()` and
`prefixes.preserves_priority()` all hold; otherwise it selects the
backtracker iff `insts.len() <= 100` and the input length is at most
`256*1024`; otherwise the NFA.  When an override is set, that engine is
used unconditionally. -/
theorem chooseEngine_spec (prog : Program) (capLen inputLen : Nat) :
    (∀ e, prog.engine = some e → chooseEngine prog capLen inputLen = e) ∧
    (prog.engine = none →
      ((chooseEngine prog capLen inputLen = .literals ↔
          capLen ≤ 2 ∧ prog.prefixes.atMatch = true ∧
          prog.prefixes.preservesPriority = true) ∧
       (¬ (capLen ≤ 2 ∧ prog.prefixes.atMatch = true ∧
            prog.prefixes.preservesPriority = true) →
          (chooseEngine prog capLen inputLen = .backtrack ↔
            prog.insts.length ≤ 100 ∧ inputLen ≤ 256 * 1024)) ∧
       (¬ (capLen ≤ 2 ∧ prog.prefixes.atMatch = true ∧
            prog.prefixes.preservesPriority = true) →
          ¬ (prog.insts.length ≤ 100 ∧ inputLen ≤ 256 * 1024) →
          chooseEngine prog capLen inputLen = .nfa))) := by
  constructor
  · intro e he
    simp [chooseEngine, he]
  · intro hnone
    unfold chooseEngine shouldExec
    rw [hnone]
    cases hA : (decide (capLen ≤ 2) && prog.prefixes.atMatch
        && prog.prefixes.preservesPriority) with
    | true =>
      simp only [Bool.and_eq_true, decide_eq_true_eq] at hA
      simp [hA.1.1, hA.1.2, hA.2]
    | false =>
      have hA2 : ¬ (capLen ≤ 2 ∧ prog.prefixes.atMatch = true ∧
          prog.prefixes.preservesPriority = true) := by
        rintro ⟨a, b, c⟩
        simp [a, b, c] at hA
      simp only [hA, Bool.false_eq_true, if_false]
      cases hB : (decide (prog.insts.length ≤ 100)
          && decide (inputLen ≤ 256 * 1024)) with
      | true =>
        simp only [Bool.and_eq_true, decide_eq_true_eq] at hB
        refine ⟨?_, fun _ => ?_, fun _ hn => absurd hB hn⟩
        · simp [hA2]
        · simp [hB.1, hB.2]
      | false =>
        have hB2 : ¬ (prog.insts.length ≤ 100 ∧ inputLen ≤ 256 * 1024) := by
          rintro ⟨a, b⟩
          simp [a, b] at hB
        refine ⟨?_, fun _ => ?_, fun _ _ => rfl⟩
        · simp [hA2]
        · simp [hB2]

/-- Witness for C2: a concrete program with no override, more than two
capture slots requested, and a small program and input, which must select
the backtracker. -/
theorem chooseEngine_spec_witness :
    chooseEngine { insts := [Inst.matchI], prefixes := Literals.emptyL,
                   anchored_begin := false, engine := none } 4 10
      = MatchEngine.backtrack := by
  have h := chooseEngine_spec
    { insts := [Inst.matchI], prefixes := Literals.emptyL,
      anchored_begin := false, engine := none } 4 10
  exact ((h.2 rfl).2.1 (by decide)).mpr (by constructor <;> decide)

/-! ## List helper lemmas -/

/-- Reading back the written cell of `List.set`. -/
theorem getD_set_self {α : Type} (l : List α) (i : Nat) (v d : α)
    (h : i < l.length) : (l.set i v).getD i d = v := by
  rw [List.getD_eq_getElem _ _ (by simpa using h)]
  simp [List.getElem_set, h]

/-- `List.set` leaves other cells unchanged. -/
theorem getD_set_ne {α : Type} (l : List α) (i j : Nat) (v d : α)
    (h : i ≠ j) : (l.set i v).getD j d = l.getD j d := by
  rcases Nat.lt_or_ge j l.length with hj | hj
  · rw [List.getD_eq_getElem _ _ (by simpa using hj),
      List.getD_eq_getElem _ _ hj]
    simp [List.getElem_set, h]
  · rw [List.getD_eq_default _ _ (by simpa using hj),
      List.getD_eq_default _ _ hj]

/-- Reading any cell of a replicate list. -/
theorem getD_replicate_self {α : Type} (n : Nat) (v d : α) (i : Nat)
    (h : i < n) : (List.replicate n v).getD i d = v := by
  rw [List.getD_eq_getElem _ _ (by simpa using h)]
  simp

/-- Setting a cell to the value it already holds is the identity. -/
theorem set_getD_self {α : Type} (l : List α) (i : Nat) (d : α)
    (h : i < l.length) : l.set i (l.getD i d) = l := by
  rw [List.getD_eq_getElem _ _ h]
  apply List.ext_getElem
  · simp
  · intro n h1 h2
    simp [List.getElem_set]
    intro he
    subst he
    rfl

/-! ## C3: the Boyer-Moore-Horspool shift table -/

/-- The last index strictly below `m` at which byte `b` occurs in `pat`
(the claim's "last index at which b occurs in pat[0..len-1]" with
`m = len - 1`). -/
def lastOccIn (pat : List Nat) (m b : Nat) : Option Nat :=
  (List.range m).foldl (fun acc i => if pat.getD i 0 = b then some i else acc)
    none

/-- C3, counterexample: for the two-byte pattern `[0, 1]`, the last index of
byte `0` in `pat[0..len-1]` is `0`, so the claim predicts
`shift[0] = len - 0 = 2`, but the constructed table holds
`len - 0 - 1 = 1`. -/
theorem singleSearch_shift_claim_cex :
    lastOccIn [0, 1] ([0, 1].length - 1) 0 = some 0 ∧
    ¬ ((SingleSearch.new [0, 1]).shift.getD 0 0 = [0, 1].length - 0) := by
  decide

/-- Partial shift tables: the fold of `singleSearchShift` cut off after the
first `m` loop iterations. -/
def shiftAfter (pat : List Nat) (m : Nat) : List Nat :=
  (List.range m).foldl
    (fun shift i => shift.set (pat.getD i 0) (pat.length - i - 1))
    (List.replicate 256 pat.length)

theorem shiftAfter_length (pat : List Nat) (m : Nat) :
    (shiftAfter pat m).length = 256 := by
  unfold shiftAfter
  induction m with
  | zero => simp
  | succ m ih =>
    rw [List.range_succ, List.foldl_append]
    simpa using ih

theorem lastOccIn_succ (pat : List Nat) (m b : Nat) :
    lastOccIn pat (m + 1) b =
      if pat.getD m 0 = b then some m else lastOccIn pat m b := by
  unfold lastOccIn
  rw [List.range_succ, List.foldl_append]
  simp

theorem shiftAfter_spec (pat : List Nat) (m b : Nat) (hb : b < 256) :
    (shiftAfter pat m).getD b 0 =
      match lastOccIn pat m b with
      | some i => pat.length - i - 1
      | none => pat.length := by
  induction m with
  | zero =>
    unfold shiftAfter lastOccIn
    simpa using getD_replicate_self 256 pat.length 0 b hb
  | succ m ih =>
    have hstep : shiftAfter pat (m + 1) =
        (shiftAfter pat m).set (pat.getD m 0) (pat.length - m - 1) := by
      unfold shiftAfter
      rw [List.range_succ, List.foldl_append]
      simp
    rw [hstep, lastOccIn_succ]
    by_cases heq : pat.getD m 0 = b
    · rw [if_pos heq, heq]
      exact getD_set_self _ _ _ _ (by rw [shiftAfter_length]; exact hb)
    · rw [if_neg heq, getD_set_ne _ _ _ _ _ heq, ih]

/-- C3, amended: for a `Single` matcher built from a non-empty pattern of
length `len` over bytes, `shift[b]` equals `len - 1 - i` where `i` is the
last index at which `b` occurs in `pat[0..len-1]` (one less than the
claim's `len - i`), and `len` for bytes that do not occur there. -/
theorem singleSearch_shift_correct (pat : List Nat) (b : Nat)
    (_hpat : 1 ≤ pat.length) (hb : b < 256) :
    (SingleSearch.new pat).shift.getD b 0 =
      match lastOccIn pat (pat.length - 1) b with
      | some i => pat.length - i - 1
      | none => pat.length := by
  have h : (SingleSearch.new pat).shift = shiftAfter pat (pat.length - 1) :=
    rfl
  rw [h, shiftAfter_spec _ _ _ hb]

/-- Witness for C3's amended theorem at the concrete pattern `[0, 1]` and
byte `0`. -/
theorem singleSearch_shift_correct_witness :
    1 ≤ [0, 1].length ∧ (0 : Nat) < 256 ∧
    (SingleSearch.new [0, 1]).shift.getD 0 0 =
      match lastOccIn [0, 1] ([0, 1].length - 1) 0 with
      | some i => [0, 1].length - i - 1
      | none => [0, 1].length := by
  refine ⟨by decide, by decide,
    singleSearch_shift_correct [0, 1] 0 (by decide) (by decide)⟩

/-! ## C7: priority preservation of the literal matcher -/

/-- C7: `Literals::preserves_priority` returns true for every Empty, Byte,
single-byte-set and Single matcher, and for a full or lazy Aho-Corasick
matcher it returns true iff all of the matcher's patterns have identical
length. -/
theorem preservesPriority_spec (l : Literals) :
    l.preservesPriority = true ↔
      (match l.matcher with
       | .emptyM => True
       | .byte _ => True
       | .bytesM _ _ => True
       | .single _ => True
       | .fullAutomaton pats => ∀ p ∈ pats, ∀ q ∈ pats, p.length = q.length
       | .automaton pats => ∀ p ∈ pats, ∀ q ∈ pats, p.length = q.length) := by
  obtain ⟨am, m⟩ := l
  cases m with
  | emptyM => simp [Literals.preservesPriority]
  | byte b => simp [Literals.preservesPriority]
  | bytesM chars sparse => simp [Literals.preservesPriority]
  | single s => simp [Literals.preservesPriority]
  | fullAutomaton pats =>
    simp only [Literals.preservesPriority, List.all_eq_true,
      decide_eq_true_eq]
    cases pats with
    | nil => simp
    | cons p0 rest =>
      constructor
      · intro h p hp q hq
        rw [h p hp, h q hq]
      · intro h p hp
        exact h p hp p0 (List.mem_cons_self ..)
  | automaton pats =>
    simp only [Literals.preservesPriority, List.all_eq_true,
      decide_eq_true_eq]
    cases pats with
    | nil => simp
    | cons p0 rest =>
      constructor
      · intro h p hp q hq
        rw [h p hp, h q hq]
      · intro h p hp
        exact h p hp p0 (List.mem_cons_self ..)

/-! ## C9: InstRanges::matches -/

/-- The linear fast path of `InstRanges::matches`
(`for r in self.ranges.iter().take(4)`), written over explicit indices:
`fuel` is the number of ranges still allowed to be inspected (4 at the
top call), `i` the current index.  `some b` is an early return, `none`
means the loop finished without deciding. -/
def linearScanIdx (rs : List (Nat × Nat)) (c : Nat) : Nat → Nat → Option Bool
  | 0, _ => none
  | fuel + 1, i =>
    if i < rs.length then
      let r := rs.getD i (0, 0)
      if c < r.1 then some false
      else if c ≤ r.2 then some true
      else linearScanIdx rs c fuel (i + 1)
    else none

/-- Modelled from the Rust standard library: `slice::binary_search_by` over
the half-open interval `[left, right)`, with the comparator of
`InstRanges::matches` (`Less` when the range's upper bound is below `c`,
`Greater` when its lower bound is above `c`, `Equal` otherwise).  Returns whether
an `Equal` element was found.  The interval shrinks at every iteration,
so `rs.length` units of fuel are always sufficient. -/
def rangesBinSearchGo (rs : List (Nat × Nat)) (c : Nat) :
    Nat → Nat → Nat → Bool
  | 0, _, _ => false
  | fuel + 1, left, right =>
    if left < right then
      let mid := (left + right) / 2
      let r := rs.getD mid (0, 0)
      if r.2 < c then rangesBinSearchGo rs c fuel (mid + 1) right
      else if c < r.1 then rangesBinSearchGo rs c fuel left mid
      else true
    else false

/-- `InstRanges::matches` from src/inst.rs: a linear scan over the first
four ranges, then a binary search over the whole range list. -/
def rangesMatches (rs : List (Nat × Nat)) (c : Nat) : Bool :=
  match linearScanIdx rs c 4 0 with
  | some b => b
  | none => rangesBinSearchGo rs c rs.length 0 rs.length

/-- The claim's hypothesis on an `InstRanges`: inclusive ranges sorted in
increasing order and pairwise non-overlapping. -/
def RangesSorted (rs : List (Nat × Nat)) : Prop :=
  (∀ i, i < rs.length → (rs.getD i (0, 0)).1 ≤ (rs.getD i (0, 0)).2) ∧
  (∀ i, i + 1 < rs.length → (rs.getD i (0, 0)).2 < (rs.getD (i + 1) (0, 0)).1)

theorem rangesSorted_hi_lt_lo (rs : List (Nat × Nat)) (h : RangesSorted rs)
    (i j : Nat) (hij : i < j) (hj : j < rs.length) :
    (rs.getD i (0, 0)).2 < (rs.getD j (0, 0)).1 := by
  induction j with
  | zero => omega
  | succ j ih =>
    rcases Nat.lt_or_ge i j with hlt | hge
    · have h1 := ih hlt (by omega)
      have h2 := h.1 j (by omega)
      have h3 := h.2 j hj
      omega
    · have : i = j := by omega
      subst this
      exact h.2 i hj

/-- Any range before a range whose upper bound is below `c` cannot
contain `c`. -/
theorem rangesSorted_no_left (rs : List (Nat × Nat)) (h : RangesSorted rs)
    (m : Nat) (hm : m < rs.length) (hc : (rs.getD m (0, 0)).2 < c)
    (i : Nat) (hi : i ≤ m) : ¬ ((rs.getD i (0, 0)).1 ≤ c ∧
      c ≤ (rs.getD i (0, 0)).2) := by
  rintro ⟨_, h2⟩
  rcases Nat.lt_or_ge i m with hlt | hge
  · have := rangesSorted_hi_lt_lo rs h i m hlt hm
    have := h.1 m hm
    omega
  · have : i = m := by omega
    subst this
    omega

/-- Any range after a range whose lower bound is above `c` cannot
contain `c`. -/
theorem rangesSorted_no_right (rs : List (Nat × Nat)) (h : RangesSorted rs)
    (m : Nat) (hc : c < (rs.getD m (0, 0)).1)
    (i : Nat) (hi : m ≤ i) (hilen : i < rs.length) :
    ¬ ((rs.getD i (0, 0)).1 ≤ c ∧ c ≤ (rs.getD i (0, 0)).2) := by
  rintro ⟨h1, _⟩
  rcases Nat.lt_or_ge m i with hlt | hge
  · have hhl := rangesSorted_hi_lt_lo rs h m i hlt hilen
    have := h.1 m (by omega)
    omega
  · have : i = m := by omega
    subst this
    omega

theorem rangesBinSearchGo_correct (rs : List (Nat × Nat)) (c : Nat)
    (h : RangesSorted rs) :
    ∀ fuel left right, right ≤ rs.length → right - left ≤ fuel →
    (∀ i, i < rs.length → (rs.getD i (0, 0)).1 ≤ c →
      c ≤ (rs.getD i (0, 0)).2 → left ≤ i ∧ i < right) →
    (rangesBinSearchGo rs c fuel left right = true ↔
      ∃ i, i < rs.length ∧ (rs.getD i (0, 0)).1 ≤ c ∧
        c ≤ (rs.getD i (0, 0)).2) := by
  intro fuel
  induction fuel with
  | zero =>
    intro left right _ hfuel hside
    simp only [rangesBinSearchGo, Bool.false_eq_true, false_iff]
    rintro ⟨i, hi, h1, h2⟩
    have := hside i hi h1 h2
    omega
  | succ fuel ih =>
    intro left right hright hfuel hside
    by_cases hlr : left < right
    · have hmidlt : (left + right) / 2 < right := by omega
      have hmidge : left ≤ (left + right) / 2 := by omega
      have hmidlen : (left + right) / 2 < rs.length := by omega
      simp only [rangesBinSearchGo, if_pos hlr]
      by_cases hhi : (rs.getD ((left + right) / 2) (0, 0)).2 < c
      · rw [if_pos hhi]
        apply ih ((left + right) / 2 + 1) right hright (by omega)
        intro i hi h1 h2
        have hs := hside i hi h1 h2
        rcases Nat.lt_or_ge ((left + right) / 2) i with hlt | hge
        · omega
        · exact absurd ⟨h1, h2⟩
            (rangesSorted_no_left rs h _ hmidlen hhi i hge)
      · rw [if_neg hhi]
        by_cases hlo : c < (rs.getD ((left + right) / 2) (0, 0)).1
        · rw [if_pos hlo]
          apply ih left ((left + right) / 2) (by omega) (by omega)
          intro i hi h1 h2
          have hs := hside i hi h1 h2
          rcases Nat.lt_or_ge i ((left + right) / 2) with hlt | hge
          · omega
          · exact absurd ⟨h1, h2⟩
              (rangesSorted_no_right rs h _ hlo i hge hi)
        · rw [if_neg hlo]
          simp only [true_iff]
          exact ⟨(left + right) / 2, hmidlen, by omega, by omega⟩
    · simp only [rangesBinSearchGo, if_neg hlr, Bool.false_eq_true,
        false_iff]
      rintro ⟨i, hi, h1, h2⟩
      have := hside i hi h1 h2
      omega

theorem linearScanIdx_spec (rs : List (Nat × Nat)) (c : Nat)
    (h : RangesSorted rs) :
    ∀ fuel i, (∀ j, j < i → j < rs.length → (rs.getD j (0, 0)).2 < c) →
    (match linearScanIdx rs c fuel i with
     | some true => ∃ k, k < rs.length ∧ (rs.getD k (0, 0)).1 ≤ c ∧
         c ≤ (rs.getD k (0, 0)).2
     | some false => ¬ ∃ k, k < rs.length ∧ (rs.getD k (0, 0)).1 ≤ c ∧
         c ≤ (rs.getD k (0, 0)).2
     | none => ∀ j, j < i + fuel → j < rs.length →
         (rs.getD j (0, 0)).2 < c) := by
  intro fuel
  induction fuel with
  | zero =>
    intro i hpassed
    simpa only [linearScanIdx] using fun j hj => hpassed j (by omega)
  | succ fuel ih =>
    intro i hpassed
    by_cases hi : i < rs.length
    · simp only [linearScanIdx, if_pos hi]
      by_cases hlo : c < (rs.getD i (0, 0)).1
      · simp only [if_pos hlo]
        rintro ⟨k, hk, h1, h2⟩
        rcases Nat.lt_or_ge k i with hlt | hge
        · have := hpassed k hlt hk
          omega
        · exact rangesSorted_no_right rs h i hlo k hge hk ⟨h1, h2⟩
      · simp only [if_neg hlo]
        by_cases hhi : c ≤ (rs.getD i (0, 0)).2
        · simp only [if_pos hhi]
          exact ⟨i, hi, by omega, hhi⟩
        · simp only [if_neg hhi]
          have hnext : ∀ j, j < i + 1 → j < rs.length →
              (rs.getD j (0, 0)).2 < c := by
            intro j hj hjlen
            rcases Nat.lt_or_ge j i with hlt | hge
            · exact hpassed j hlt hjlen
            · have : j = i := by omega
              subst this
              omega
          have := ih (i + 1) hnext
          rcases hres : linearScanIdx rs c fuel (i + 1) with _ | b
          · rw [hres] at this
            intro j hj hjlen
            exact this j (by omega) hjlen
          · rw [hres] at this
            cases b
            · exact this
            · exact this
    · simp only [linearScanIdx, if_neg hi]
      intro j _ hjlen
      exact hpassed j (by omega) hjlen

/-- C9: for ranges sorted in increasing order and pairwise non-overlapping,
`InstRanges::matches` (linear scan over the first four ranges, then binary
search) is equivalent to the naive membership test. -/
theorem rangesMatches_spec (rs : List (Nat × Nat)) (c : Nat)
    (h : RangesSorted rs) :
    rangesMatches rs c = true ↔
      ∃ r ∈ rs, r.1 ≤ c ∧ c ≤ r.2 := by
  have hmem : (∃ k, k < rs.length ∧ (rs.getD k (0, 0)).1 ≤ c ∧
      c ≤ (rs.getD k (0, 0)).2) ↔ ∃ r ∈ rs, r.1 ≤ c ∧ c ≤ r.2 := by
    constructor
    · rintro ⟨k, hk, h1, h2⟩
      refine ⟨rs.getD k (0, 0), ?_, h1, h2⟩
      rw [List.getD_eq_getElem _ _ hk]
      exact List.getElem_mem hk
    · rintro ⟨r, hr, h1, h2⟩
      obtain ⟨k, hk, hkr⟩ := List.mem_iff_getElem.mp hr
      refine ⟨k, hk, ?_, ?_⟩ <;>
        rw [List.getD_eq_getElem _ _ hk, hkr] <;> assumption
  rw [← hmem]
  unfold rangesMatches
  have hscan := linearScanIdx_spec rs c h 4 0 (by omega)
  rcases hres : linearScanIdx rs c 4 0 with _ | b
  · rw [hres] at hscan
    exact rangesBinSearchGo_correct rs c h rs.length 0 rs.length
      (Nat.le_refl _) (by omega) (fun i hi _ _ => ⟨by omega, hi⟩)
  · rw [hres] at hscan
    cases b
    · simpa using hscan
    · simpa using hscan

/-- Witness for C9 at a concrete sorted range list and character. -/
theorem rangesMatches_spec_witness :
    rangesMatches [(10, 20), (30, 40), (50, 60), (70, 80), (90, 99)] 95
      = true :=
  (rangesMatches_spec [(10, 20), (30, 40), (50, 60), (70, 80), (90, 99)] 95
    (by
      constructor
      · decide
      · intro i hi
        have hlen : i + 1 < 5 := by simpa using hi
        have hlt : i < 4 := by omega
        interval_cases i <;> decide)).mpr
    ⟨(90, 99), by decide, by decide, by decide⟩

/-! ## C8: the whole-program prefix extractor -/

/-- `InstRanges::num_chars` from src/inst.rs. -/
def rangesNumChars (rs : List (Nat × Nat)) : Nat :=
  (rs.map (fun r => 1 + r.2 - r.1)).foldl (· + ·) 0

/-- The loop of `BuildRequiredLiterals::literals` from src/literals.rs:
follow a linear chain through `Save`, `Char`, `Ranges`, `Bytes` from `pc`,
accumulating literals, stopping at `Split`, `EmptyLook` or `Match` (where
`at_match := leads_to_match(pc)`) or when a budget check fails (where
`at_match := false`).  `wf` is the fuel of the inner `skip` walk, `fuel`
the fuel of this loop; `none` models divergence on a `Save` cycle or an
out-of-range `pc` (an index panic in the source). -/
def reqLiteralsGo (insts : List Inst) (limit wf : Nat) :
    Nat → Nat → AlternateLiterals → Option AlternateLiterals
  | 0, _, _ => none
  | fuel + 1, pc, alts =>
    match insts.get? pc with
    | none => none
    | some (.save _ g) => reqLiteralsGo insts limit wf fuel g alts
    | some (.char c g) =>
        if alts.numBytes + 1 > limit then
          some { alts with at_match := false }
        else reqLiteralsGo insts limit wf fuel g (alts.addLiteralChar c)
    | some (.ranges rs g) =>
        if alts.numBytes * rangesNumChars rs
             + alts.literals.length * rangesNumChars rs > limit then
          some { alts with at_match := false }
        else
          reqLiteralsGo insts limit wf fuel g (alts.addLiteralCharRanges rs)
    | some (.bytes lo hi g) =>
        if alts.numBytes * (hi - lo + 1)
             + alts.literals.length * (hi - lo + 1) > limit then
          some { alts with at_match := false }
        else
          reqLiteralsGo insts limit wf fuel g (alts.addLiteralByteRange lo hi)
    | some (.split _ _) =>
        some { alts with at_match := leadsToMatch insts wf pc }
    | some (.emptyLook _ _) =>
        some { alts with at_match := leadsToMatch insts wf pc }
    | some .matchI =>
        some { alts with at_match := leadsToMatch insts wf pc }

/-- `BuildRequiredLiterals::literals` from src/literals.rs: run the chain
walk from the initial accumulator `{at_match: true, literals: [[]]}` and
normalize the "only the empty literal" outcome to the empty set. -/
def reqLiterals (insts : List Inst) (limit wf fuel pc : Nat) :
    Option AlternateLiterals :=
  (reqLiteralsGo insts limit wf fuel pc
      { at_match := true, literals := [[]] }).map
    (fun alts =>
      if alts.literals.length = 1 ∧ (alts.literals.headD []).isEmpty then
        AlternateLiterals.emptyA
      else alts)


/-- The `if let Inst::Split(ref inst)` test of the extractor DFS, split out
so that proofs only distinguish split from non-split instructions. -/
def splitGotos : Inst → Option (Nat × Nat)
  | .split g1 g2 => some (g1, g2)
  | _ => none

/-- The DFS loop of `BuildPrefixes::literals` from src/literals.rs:
`stack` of pending pcs, `seen` set (a pc is inserted when popped, and the
two `Split` successors are pushed only if unseen, with the higher priority
branch pushed last so it is popped first), `acc` the accumulated
alternates.  A terminal (non-`Split`) branch runs the required-literal
walker with the per-branch budget `limit / 10`; an empty walker result or
a blown 3000-byte global budget aborts with the empty alternate set. -/
def buildPrefixesGo (insts : List Inst) (wf : Nat) :
    Nat → List Nat → List Nat → AlternateLiterals →
    Option AlternateLiterals
  | 0, _, _, _ => none
  | fuel + 1, stack, seen, acc =>
    match stack with
    | [] => some acc
    | pc0 :: rest =>
      match instsSkip insts wf pc0 with
      | none => none
      | some pc =>
        match insts.get? pc with
        | none => none
        | some inst =>
          match splitGotos inst with
          | some (g1, g2) =>
              let stack1 := if g2 ∈ pc0 :: seen then rest else g2 :: rest
              let stack2 :=
                if g1 ∈ pc0 :: seen then stack1 else g1 :: stack1
              buildPrefixesGo insts wf fuel stack2 (pc0 :: seen) acc
          | none =>
              match reqLiterals insts (3000 / 10) wf wf pc with
              | none => none
              | some alts =>
                if alts.isEmptyA then some AlternateLiterals.emptyA
                else if acc.numBytes + alts.numBytes > 3000 then
                  some AlternateLiterals.emptyA
                else buildPrefixesGo insts wf fuel rest (pc0 :: seen)
                       (acc.addAlternates alts)

/-- `BuildPrefixes::literals` from src/literals.rs: DFS from `skip(1)` with
the 3000-byte global budget and the initial accumulator
`{at_match: true, literals: []}`. -/
def buildPrefixesLiterals (insts : List Inst) (fuel wf : Nat) :
    Option AlternateLiterals :=
  match instsSkip insts wf 1 with
  | none => none
  | some s0 =>
      buildPrefixesGo insts wf fuel [s0] []
        { at_match := true, literals := [] }

/-- The same DFS as `buildPrefixesGo`, but only recording the sequence of
terminal (non-`Split`) branch pcs it enters, independent of any literal
accumulation. -/
def branchSeqGo (insts : List Inst) (wf : Nat) :
    Nat → List Nat → List Nat → Option (List Nat)
  | 0, _, _ => none
  | fuel + 1, stack, seen =>
    match stack with
    | [] => some []
    | pc0 :: rest =>
      match instsSkip insts wf pc0 with
      | none => none
      | some pc =>
        match insts.get? pc with
        | none => none
        | some inst =>
          match splitGotos inst with
          | some (g1, g2) =>
              let stack1 := if g2 ∈ pc0 :: seen then rest else g2 :: rest
              let stack2 :=
                if g1 ∈ pc0 :: seen then stack1 else g1 :: stack1
              branchSeqGo insts wf fuel stack2 (pc0 :: seen)
          | none =>
              (branchSeqGo insts wf fuel rest (pc0 :: seen)).map (pc :: ·)

/-- The terminal branch sequence of the whole extractor DFS. -/
def branchSeq (insts : List Inst) (fuel wf : Nat) : Option (List Nat) :=
  match instsSkip insts wf 1 with
  | none => none
  | some s0 => branchSeqGo insts wf fuel [s0] []

/-- The claim's description of how the extractor combines the per-branch
walker results, taken in exploration order: give up with the empty
alternate set (no literals, `at_match = false`) as soon as a branch yields
an empty literal set or adding a branch would push the running byte total
over the 3000-byte budget; otherwise union the literal sets and conjoin
the `at_match` flags. -/
def combineBranches :
    List (Option AlternateLiterals) → AlternateLiterals →
    Option AlternateLiterals
  | [], acc => some acc
  | a :: rest, acc =>
    match a with
    | none => none
    | some alts =>
        if alts.isEmptyA then some AlternateLiterals.emptyA
        else if acc.numBytes + alts.numBytes > 3000 then
          some AlternateLiterals.emptyA
        else combineBranches rest (acc.addAlternates alts)

theorem buildPrefixesGo_decomposition (insts : List Inst) (wf : Nat) :
    ∀ fuel stack seen acc r bs,
    buildPrefixesGo insts wf fuel stack seen acc = some r →
    branchSeqGo insts wf fuel stack seen = some bs →
    combineBranches (bs.map (reqLiterals insts (3000 / 10) wf wf)) acc
      = some r := by
  intro fuel
  induction fuel with
  | zero =>
    intro stack seen acc r bs hgo _
    simp [buildPrefixesGo] at hgo
  | succ fuel ih =>
    intro stack seen acc r bs hgo hseq
    cases stack with
    | nil =>
      simp only [buildPrefixesGo, Option.some.injEq] at hgo
      simp only [branchSeqGo, Option.some.injEq] at hseq
      subst hgo
      subst hseq
      rfl
    | cons pc0 rest =>
      simp only [buildPrefixesGo] at hgo
      simp only [branchSeqGo] at hseq
      rcases hskip : instsSkip insts wf pc0 with _ | pc
      · simp only [hskip] at hgo
        exact absurd hgo (by simp)
      simp only [hskip] at hgo hseq
      rcases hinst : insts.get? pc with _ | inst
      · simp only [hinst] at hgo
        exact absurd hgo (by simp)
      simp only [hinst] at hgo hseq
      rcases hsp : splitGotos inst with _ | ⟨g1, g2⟩
      · simp only [hsp] at hgo hseq
        rcases hwalk : reqLiterals insts (3000 / 10) wf wf pc with _ | alts
        · simp only [hwalk] at hgo
          exact absurd hgo (by simp)
        simp only [hwalk] at hgo
        rcases hrest : branchSeqGo insts wf fuel rest (pc0 :: seen)
            with _ | bs2
        · simp only [hrest] at hseq
          exact absurd hseq (by simp)
        simp only [hrest, Option.map_some', Option.some.injEq] at hseq
        subst hseq
        simp only [List.map_cons, combineBranches, hwalk]
        by_cases hemp : alts.isEmptyA
        · rw [if_pos hemp] at hgo ⊢
          exact hgo
        · rw [if_neg hemp] at hgo ⊢
          by_cases hbud : acc.numBytes + alts.numBytes > 3000
          · rw [if_pos hbud] at hgo ⊢
            exact hgo
          · rw [if_neg hbud] at hgo ⊢
            exact ih _ _ _ _ _ hgo hrest
      · simp only [hsp] at hgo hseq
        exact ih _ _ _ _ _ hgo hseq

/-- C8: whenever `BuildPrefixes::literals` returns (and the branch
enumeration of its DFS is defined), its result is exactly the claim's
sequential combination over the explored terminal branches: it gives up
with the empty alternate set (no literals, `at_match = false`) as soon as
a branch's required-literal set is empty or the 3000-byte global budget
would be exceeded, and otherwise returns the union of all branches'
literal sets with `at_match` the conjunction of the branches' flags
(starting from the all-true, empty accumulator). -/
theorem buildPrefixes_decomposition (insts : List Inst) (fuel wf : Nat)
    (r : AlternateLiterals) (bs : List Nat)
    (hgo : buildPrefixesLiterals insts fuel wf = some r)
    (hseq : branchSeq insts fuel wf = some bs) :
    combineBranches (bs.map (reqLiterals insts (3000 / 10) wf wf))
      { at_match := true, literals := [] } = some r := by
  unfold buildPrefixesLiterals at hgo
  unfold branchSeq at hseq
  rcases hskip : instsSkip insts wf 1 with _ | s0
  · simp only [hskip] at hgo
    exact absurd hgo (by simp)
  · simp only [hskip] at hgo hseq
    exact buildPrefixesGo_decomposition insts wf fuel [s0] [] _ r bs hgo hseq

/-- The byte program compiled from the pattern `ab`:
`[Save(0), Bytes(a,a), Bytes(b,b), Save(1), Match]`. -/
def instsAB : List Inst :=
  [.save 0 1, .bytes 97 97 2, .bytes 98 98 3, .save 1 4, .matchI]

/-- Witness for C8 at the concrete byte program for `ab`: one terminal
branch, whose walker result `{at_match: true, literals: [[97, 98]]}` is
both what the extractor returns and what the claim's combination yields. -/
theorem buildPrefixes_decomposition_witness :
    buildPrefixesLiterals instsAB 10 10
        = some { at_match := true, literals := [[97, 98]] } ∧
    branchSeq instsAB 10 10 = some [1] ∧
    combineBranches ([1].map (reqLiterals instsAB (3000 / 10) 10 10))
        { at_match := true, literals := [] }
      = some { at_match := true, literals := [[97, 98]] } :=
  ⟨by decide, by decide,
    buildPrefixes_decomposition instsAB 10 10 _ _ (by decide) (by decide)⟩

/-! ## The bounded backtracker, src/backtrack.rs -/

/-- `Job` from src/backtrack.rs: an explicit unit of stack space, either a
state transition to resume or a capture-slot rollback. -/
inductive BtJob where
  | inst (pc atP : Nat)
  | saveRestore (slot : Nat) (old_pos : Option Nat)
  deriving DecidableEq, Repr

/-- Which instruction kind produced an in-loop advance of `step`
(observational instrumentation only). -/
inductive BtKind where
  | save
  | split
  | emptyLook
  | bytes
  deriving DecidableEq, Repr

/-- The mutable state of one backtracker invocation: the capture slots,
the job stack (head = top), and the visited bitmap as a list of 32-bit
words.  The last three fields are pure instrumentation (chronological
order reversed, newest first): every in-loop advance `(kind, pc, at)` of
`step`, every `(pc, at)` configuration whose visited bit was consulted,
and every consulted configuration whose bit was clear (so the walk
continued through it). -/
structure BtState where
  caps : List (Option Nat)
  jobs : List BtJob
  visited : List Nat
  advanced : List (BtKind × Nat × Nat)
  checked : List (Nat × Nat)
  followed : List (Nat × Nat)
  deriving DecidableEq, Repr

/-- The visited-bitmap key of a configuration:
`k = pc * (input.len() + 1) + at`. -/
def btVisitedKey (inputLen pc atP : Nat) : Nat :=
  pc * (inputLen + 1) + atP

/-- `Backtrack::has_visited` from src/backtrack.rs: test-and-set of bit
`k % 32` of word `k / 32` (`BIT_SIZE = 32`); returns whether the bit was
already set.  `none` models the word-index panic of `visited[k1]`. -/
def btHasVisited (visited : List Nat) (inputLen pc atP : Nat) :
    Option (Bool × List Nat) :=
  let k := btVisitedKey inputLen pc atP
  let k1 := k / 32
  let k2 := 1 <<< (k % 32)
  match visited.get? k1 with
  | none => none
  | some w =>
    if w &&& k2 = 0 then some (false, visited.set k1 (w ||| k2))
    else some (true, visited)

/-- Whether the visited bit of a configuration is set (pure observation of
the bitmap, used only in statements and invariants). -/
def btBitSet (visited : List Nat) (inputLen pc atP : Nat) : Bool :=
  (visited.getD (btVisitedKey inputLen pc atP / 32) 0).testBit
    (btVisitedKey inputLen pc atP % 32)

/-- `Backtrack::step` from src/backtrack.rs.  The in-place loop is the
recursion; after an in-place advance from `Save`, `Split` (to `goto1`) or
`EmptyLook` the visited bit of the new configuration is consulted
(returning `false` if set, setting it otherwise), while a successful
`Bytes` consumption advances with `continue` and bypasses the check.
A `Char` or `Ranges` instruction has no arm in the source's `match`
(the backtracker only executes byte programs), modelled as `none`. -/
def btStep (insts : List Inst) (input : List Nat) :
    Nat → BtState → Nat → Nat → Option (Bool × BtState)
  | 0, _, _, _ => none
  | fuel + 1, s, pc, atP =>
    match insts.get? pc with
    | none => none
    | some .matchI => some (true, s)
    | some (.save slot g) =>
        let s1 :=
          if slot < s.caps.length then
            { s with
              jobs := .saveRestore slot (s.caps.getD slot none) :: s.jobs,
              caps := s.caps.set slot (some atP) }
          else s
        let s2 := { s1 with advanced := (.save, g, atP) :: s1.advanced,
                            checked := (g, atP) :: s1.checked }
        match btHasVisited s2.visited input.length g atP with
        | none => none
        | some (true, v) => some (false, { s2 with visited := v })
        | some (false, v) =>
            btStep insts input fuel
              { s2 with visited := v,
                        followed := (g, atP) :: s2.followed } g atP
    | some (.split g1 g2) =>
        let s1 := { s with jobs := .inst g2 atP :: s.jobs }
        let s2 := { s1 with advanced := (.split, g1, atP) :: s1.advanced,
                            checked := (g1, atP) :: s1.checked }
        match btHasVisited s2.visited input.length g1 atP with
        | none => none
        | some (true, v) => some (false, { s2 with visited := v })
        | some (false, v) =>
            btStep insts input fuel
              { s2 with visited := v,
                        followed := (g1, atP) :: s2.followed } g1 atP
    | some (.emptyLook look g) =>
        if emptyLookAt look input atP then
          let s2 := { s with advanced := (.emptyLook, g, atP) :: s.advanced,
                             checked := (g, atP) :: s.checked }
          match btHasVisited s2.visited input.length g atP with
          | none => none
          | some (true, v) => some (false, { s2 with visited := v })
          | some (false, v) =>
              btStep insts input fuel
                { s2 with visited := v,
                          followed := (g, atP) :: s2.followed } g atP
        else some (false, s)
    | some (.bytes lo hi g) =>
        match input.get? atP with
        | some b =>
            if lo ≤ b ∧ b ≤ hi then
              btStep insts input fuel
                { s with advanced := (.bytes, g, atP + 1) :: s.advanced }
                g (atP + 1)
            else some (false, s)
        | none => some (false, s)
    | some (.char _ _) => none
    | some (.ranges _ _) => none

/-- The `while let Some(job) = jobs.pop()` loop of `Backtrack::backtrack`
from src/backtrack.rs. -/
def btLoop (insts : List Inst) (input : List Nat) (stepFuel : Nat) :
    Nat → BtState → Option (Bool × BtState)
  | 0, _ => none
  | fuel + 1, s =>
    match s.jobs with
    | [] => some (false, s)
    | .inst pc atP :: rest =>
        match btStep insts input stepFuel { s with jobs := rest } pc atP with
        | none => none
        | some (true, s2) => some (true, s2)
        | some (false, s2) => btLoop insts input stepFuel fuel s2
    | .saveRestore slot old :: rest =>
        btLoop insts input stepFuel fuel
          { s with jobs := rest, caps := s.caps.set slot old }

/-- `Backtrack::backtrack` from src/backtrack.rs: push the initial
`(pc = 0, start)` job and run the stack loop. -/
def btBacktrack (insts : List Inst) (input : List Nat)
    (stepFuel loopFuel : Nat) (s : BtState) (start : Nat) :
    Option (Bool × BtState) :=
  btLoop insts input stepFuel loopFuel
    { s with jobs := .inst 0 start :: s.jobs }

/-- `Backtrack::clear` from src/backtrack.rs: empty the job stack and
reset the visited bitmap.  The source truncates, zeroes, and regrows the
cached buffer; the net effect is always a zero bitmap of
`(insts.len() * (input.len() + 1) + 31) / 32` words. -/
def btClear (insts : List Inst) (input : List Nat) (s : BtState) : BtState :=
  { s with
    jobs := [],
    visited :=
      List.replicate ((insts.length * (input.length + 1) + 32 - 1) / 32) 0 }

/-- The retry loop of `Backtrack::exec_` from src/backtrack.rs: attempt
`backtrack(at)`; on failure, stop if `at >= input.len()`, else retry at
`at + 1`. -/
def btExecLoop (insts : List Inst) (input : List Nat)
    (stepFuel loopFuel : Nat) :
    Nat → BtState → Nat → Option (Bool × BtState)
  | 0, _, _ => none
  | fuel + 1, s, atP =>
    match btBacktrack insts input stepFuel loopFuel s atP with
    | none => none
    | some (true, s2) => some (true, s2)
    | some (false, s2) =>
        if input.length ≤ atP then some (false, s2)
        else btExecLoop insts input stepFuel loopFuel fuel s2 (atP + 1)

/-- `Backtrack::exec` / `Backtrack::exec_` from src/backtrack.rs over a
byte input: clear the cached machine state, return `false` immediately
for an anchored program started past the beginning, else run the retry
loop.  The position `at` is the byte offset (`is_beginning` is
`pos == 0`). -/
def btExec (prog : Program) (input : List Nat) (caps : List (Option Nat))
    (start : Nat) (stepFuel loopFuel outerFuel : Nat) :
    Option (Bool × BtState) :=
  let s0 := btClear prog.insts input
    { caps := caps, jobs := [], visited := [],
      advanced := [], checked := [], followed := [] }
  if prog.anchored_begin ∧ ¬ (start = 0) then some (false, s0)
  else btExecLoop prog.insts input stepFuel loopFuel outerFuel s0 start

/-- Applying the pending `SaveRestore` rollbacks of a job stack (top
first) to a capture vector; `Inst` jobs do not touch captures. -/
def btRestoreAll : List BtJob → List (Option Nat) → List (Option Nat)
  | [], caps => caps
  | .inst _ _ :: rest, caps => btRestoreAll rest caps
  | .saveRestore slot old :: rest, caps =>
      btRestoreAll rest (caps.set slot old)

theorem btStep_preserves_restoreAll (insts : List Inst) (input : List Nat) :
    ∀ fuel s pc atP b s2,
    btStep insts input fuel s pc atP = some (b, s2) →
    btRestoreAll s2.jobs s2.caps = btRestoreAll s.jobs s.caps := by
  intro fuel
  induction fuel with
  | zero =>
    intro s pc atP b s2 h
    simp [btStep] at h
  | succ fuel ih =>
    intro s pc atP b s2 h
    simp only [btStep] at h
    split at h
    · exact absurd h (by simp)
    · -- Match
      simp only [Option.some.injEq, Prod.mk.injEq] at h
      rw [← h.2]
    · -- Save
      rename_i slot g heq
      split at h
      · exact absurd h (by simp)
      · -- visited bit already set
        simp only [Option.some.injEq, Prod.mk.injEq] at h
        rw [← h.2]
        by_cases hslot : slot < s.caps.length
        · simp only [if_pos hslot, btRestoreAll, List.set_set]
          rw [set_getD_self _ _ _ hslot]
        · simp only [if_neg hslot]
      · -- bit clear, walk continues
        have h2 := ih _ _ _ _ _ h
        rw [h2]
        by_cases hslot : slot < s.caps.length
        · simp only [if_pos hslot, btRestoreAll, List.set_set]
          rw [set_getD_self _ _ _ hslot]
        · simp only [if_neg hslot]
    · -- Split
      split at h
      · exact absurd h (by simp)
      · simp only [Option.some.injEq, Prod.mk.injEq] at h
        rw [← h.2]
        simp only [btRestoreAll]
      · have h2 := ih _ _ _ _ _ h
        rw [h2]
        simp only [btRestoreAll]
    · -- EmptyLook
      split at h
      · split at h
        · exact absurd h (by simp)
        · simp only [Option.some.injEq, Prod.mk.injEq] at h
          rw [← h.2]
        · have h2 := ih _ _ _ _ _ h
          rw [h2]
      · simp only [Option.some.injEq, Prod.mk.injEq] at h
        rw [← h.2]
    · -- Bytes
      split at h
      · split at h
        · have h2 := ih _ _ _ _ _ h
          rw [h2]
        · simp only [Option.some.injEq, Prod.mk.injEq] at h
          rw [← h.2]
      · simp only [Option.some.injEq, Prod.mk.injEq] at h
        rw [← h.2]
    · exact absurd h (by simp)
    · exact absurd h (by simp)

theorem btLoop_restoreAll (insts : List Inst) (input : List Nat)
    (stepFuel : Nat) :
    ∀ fuel s b s2,
    btLoop insts input stepFuel fuel s = some (b, s2) →
    btRestoreAll s2.jobs s2.caps = btRestoreAll s.jobs s.caps ∧
      (b = false → s2.jobs = []) := by
  intro fuel
  induction fuel with
  | zero =>
    intro s b s2 h
    simp [btLoop] at h
  | succ fuel ih =>
    intro s b s2 h
    simp only [btLoop] at h
    split at h
    · -- empty stack
      rename_i hjobs
      simp only [Option.some.injEq, Prod.mk.injEq] at h
      rw [← h.2, ← h.1]
      exact ⟨rfl, fun _ => hjobs⟩
    · -- Inst job on top
      rename_i pc atP rest hjobs
      split at h
      · exact absurd h (by simp)
      · -- step returned true
        rename_i s3 heqstep
        simp only [Option.some.injEq, Prod.mk.injEq] at h
        have hstep := btStep_preserves_restoreAll insts input _ _ _ _ _ _
          heqstep
        rw [← h.2, hstep, hjobs]
        exact ⟨rfl, fun hb => absurd (hb ▸ h.1) (by simp)⟩
      · -- step returned false, keep popping
        rename_i s3 heqstep
        have hstep := btStep_preserves_restoreAll insts input _ _ _ _ _ _
          heqstep
        have h2 := ih _ _ _ h
        rw [h2.1, hstep, hjobs]
        exact ⟨rfl, h2.2⟩
    · -- SaveRestore job on top
      rename_i slot old rest hjobs
      have h2 := ih _ _ _ h
      rw [h2.1, hjobs]
      exact ⟨rfl, h2.2⟩

theorem btBacktrack_restoreAll (insts : List Inst) (input : List Nat)
    (stepFuel loopFuel : Nat) (s : BtState) (start : Nat) (b : Bool)
    (s2 : BtState)
    (h : btBacktrack insts input stepFuel loopFuel s start = some (b, s2)) :
    btRestoreAll s2.jobs s2.caps = btRestoreAll s.jobs s.caps ∧
      (b = false → s2.jobs = []) := by
  unfold btBacktrack at h
  have h2 := btLoop_restoreAll insts input stepFuel _ _ _ _ h
  rw [h2.1]
  exact ⟨rfl, h2.2⟩

theorem btExecLoop_false_caps (insts : List Inst) (input : List Nat)
    (stepFuel loopFuel : Nat) :
    ∀ fuel s atP s2, s.jobs = [] →
    btExecLoop insts input stepFuel loopFuel fuel s atP = some (false, s2) →
    s2.caps = s.caps := by
  intro fuel
  induction fuel with
  | zero =>
    intro s atP s2 _ h
    simp [btExecLoop] at h
  | succ fuel ih =>
    intro s atP s2 hjobs h
    simp only [btExecLoop] at h
    split at h
    · exact absurd h (by simp)
    · -- backtrack matched: contradicts the false result
      simp only [Option.some.injEq, Prod.mk.injEq] at h
      exact absurd h.1 (by simp)
    · -- backtrack failed
      rename_i s3 heqbt
      have h3 := btBacktrack_restoreAll insts input stepFuel loopFuel
        _ _ _ _ heqbt
      have hjobs3 : s3.jobs = [] := h3.2 rfl
      have hcaps3 : s3.caps = s.caps := by
        have := h3.1
        rw [hjobs3, hjobs] at this
        simpa [btRestoreAll] using this
      split at h
      · simp only [Option.some.injEq, Prod.mk.injEq] at h
        rw [← h.2, hcaps3]
      · have := ih _ _ _ hjobs3 h
        rw [this, hcaps3]

/-- C6: the backtracking engine writes captures only on success.  Whenever
`Backtrack::exec` returns `false`, every slot of the capture vector on
return equals its value at entry (each `Save` write is paired with a
pushed `SaveRestore` job, and a failing invocation drains the whole job
stack). -/
theorem btExec_false_preserves_caps (prog : Program) (input : List Nat)
    (caps : List (Option Nat)) (start : Nat)
    (stepFuel loopFuel outerFuel : Nat) (s2 : BtState)
    (h : btExec prog input caps start stepFuel loopFuel outerFuel
      = some (false, s2)) :
    s2.caps = caps := by
  unfold btExec at h
  split at h
  · simp only [Option.some.injEq, Prod.mk.injEq] at h
    rw [← h.2]
    rfl
  · exact btExecLoop_false_caps prog.insts input stepFuel loopFuel
      outerFuel _ start s2 rfl h

/-- The program for `ab` wrapped with an empty prefix machine and no
engine override (a convenient concrete `Program` for witnesses). -/
def progABNoPfx : Program :=
  { insts := instsAB, prefixes := Literals.emptyL,
    anchored_begin := false, engine := none }

/-- Witness for C6: the backtracker fails on the program for `ab` against
the input `xx`, and the capture slots come back exactly as they went in. -/
theorem btExec_false_preserves_caps_witness :
    ((btExec progABNoPfx [120, 120] [some 7, none] 0 20 20 10).map
      (fun r => (r.1, decide (r.2.caps = [some 7, none])))) =
      some (false, true) := by
  have hfst : (btExec progABNoPfx [120, 120] [some 7, none] 0 20 20 10).map
      Prod.fst = some false := by decide
  rcases hrun : btExec progABNoPfx [120, 120] [some 7, none] 0 20 20 10
    with _ | ⟨b, s2⟩
  · rw [hrun] at hfst
    exact absurd hfst (by simp)
  · rw [hrun] at hfst
    simp only [Option.map_some', Option.some.injEq] at hfst
    subst hfst
    have hc := btExec_false_preserves_caps _ _ _ _ _ _ _ _ hrun
    simp [hrun, hc]

/-! ## C4: the visited-bitmap discipline of the backtracker -/

theorem and_shift_eq_zero_iff (w j : Nat) :
    (w &&& (1 <<< j) = 0) ↔ w.testBit j = false := by
  rw [Nat.one_shiftLeft, Nat.and_two_pow]
  cases hw : w.testBit j <;> simp [hw, (Nat.two_pow_pos j).ne']

theorem shiftLeft_testBit_self (j : Nat) : (1 <<< j).testBit j = true := by
  rw [Nat.one_shiftLeft]
  exact Nat.testBit_two_pow_self

/-- A successful visited-bitmap consult never clears a bit. -/
theorem btBitSet_mono (visited : List Nat) (L pc atP : Nat) (r : Bool)
    (v2 : List Nat) (h : btHasVisited visited L pc atP = some (r, v2))
    (pc2 at2 : Nat) (hb : btBitSet visited L pc2 at2 = true) :
    btBitSet v2 L pc2 at2 = true := by
  unfold btHasVisited at h
  rcases hget : visited.get? (btVisitedKey L pc atP / 32) with _ | w
  · simp only [hget] at h
    exact absurd h (by simp)
  · simp only [hget] at h
    split at h
    · simp only [Option.some.injEq, Prod.mk.injEq] at h
      rw [← h.2]
      obtain ⟨hlt, -⟩ := List.get?_eq_some.mp hget
      unfold btBitSet at hb ⊢
      by_cases hk : btVisitedKey L pc2 at2 / 32
          = btVisitedKey L pc atP / 32
      · rw [hk, getD_set_self _ _ _ _ hlt]
        have hw : visited.getD (btVisitedKey L pc2 at2 / 32) 0 = w := by
          rw [hk, List.getD_eq_getD_get?, hget]
          rfl
        rw [hw] at hb
        rw [Nat.testBit_lor, hb]
        rfl
      · rw [getD_set_ne _ _ _ _ _ (fun he => hk he.symm)]
        exact hb
    · simp only [Option.some.injEq, Prod.mk.injEq] at h
      rw [← h.2]
      exact hb

/-- A consult that reports "not yet visited" found the bit clear and
leaves it set. -/
theorem btHasVisited_false_spec (visited : List Nat) (L pc atP : Nat)
    (v2 : List Nat) (h : btHasVisited visited L pc atP = some (false, v2)) :
    btBitSet visited L pc atP = false ∧ btBitSet v2 L pc atP = true := by
  unfold btHasVisited at h
  rcases hget : visited.get? (btVisitedKey L pc atP / 32) with _ | w
  · simp only [hget] at h
    exact absurd h (by simp)
  · simp only [hget] at h
    have hw : visited.getD (btVisitedKey L pc atP / 32) 0 = w := by
      rw [List.getD_eq_getD_get?, hget]
      rfl
    split at h
    · rename_i hzero
      simp only [Option.some.injEq, Prod.mk.injEq] at h
      obtain ⟨hlt, -⟩ := List.get?_eq_some.mp hget
      constructor
      · unfold btBitSet
        rw [hw]
        exact (and_shift_eq_zero_iff _ _).mp hzero
      · rw [← h.2]
        unfold btBitSet
        rw [getD_set_self _ _ _ _ hlt, Nat.testBit_lor,
          shiftLeft_testBit_self]
        exact Bool.or_true _
    · simp only [Option.some.injEq, Prod.mk.injEq] at h
      exact absurd h.1 (by simp)

/-- The key of an advance directed through the visited check: the
configuration for `Save`, `Split` and `EmptyLook` advances, nothing for a
`Bytes` consumption. -/
def zwKey : BtKind × Nat × Nat → Option (Nat × Nat)
  | (.bytes, _, _) => none
  | (.save, pc, atP) => some (pc, atP)
  | (.split, pc, atP) => some (pc, atP)
  | (.emptyLook, pc, atP) => some (pc, atP)

/-- The instrumentation invariant of one backtracker invocation: the
consulted configurations are exactly the zero-width advances (in order),
no configuration was walked through twice, and every walked-through
configuration has its visited bit set. -/
def BtInv (inputLen : Nat) (s : BtState) : Prop :=
  s.checked = s.advanced.filterMap zwKey ∧
  s.followed.Nodup ∧
  ∀ cfg ∈ s.followed, btBitSet s.visited inputLen cfg.1 cfg.2 = true

theorem btStep_inv (insts : List Inst) (input : List Nat) :
    ∀ fuel s pc atP b s2,
    btStep insts input fuel s pc atP = some (b, s2) →
    BtInv input.length s → BtInv input.length s2 := by
  intro fuel
  induction fuel with
  | zero =>
    intro s pc atP b s2 h
    simp [btStep] at h
  | succ fuel ih =>
    intro s pc atP b s2 h hinv
    obtain ⟨hck, hnd, hbits⟩ := hinv
    simp only [btStep] at h
    split at h
    · exact absurd h (by simp)
    · -- Match
      simp only [Option.some.injEq, Prod.mk.injEq] at h
      rw [← h.2]
      exact ⟨hck, hnd, hbits⟩
    · -- Save
      rename_i slot g heq
      by_cases hslot : slot < s.caps.length <;>
        simp only [if_pos, if_neg, hslot, if_true, if_false] at h <;>
        [skip; skip] <;>
      · split at h
        · exact absurd h (by simp)
        · rename_i v heqv
          simp only [Option.some.injEq, Prod.mk.injEq] at h
          rw [← h.2]
          refine ⟨?_, hnd, ?_⟩
          · simp [List.filterMap_cons, zwKey, hck]
          · intro cfg hcfg
            exact btBitSet_mono _ _ _ _ _ _ heqv cfg.1 cfg.2
              (hbits cfg hcfg)
        · rename_i v heqv
          have hfs := btHasVisited_false_spec _ _ _ _ _ heqv
          refine ih _ _ _ _ _ h ⟨?_, ?_, ?_⟩
          · simp [List.filterMap_cons, zwKey, hck]
          · refine List.Nodup.cons ?_ hnd
            intro hmem
            have := hbits _ hmem
            rw [this] at hfs
            exact absurd hfs.1 (by simp)
          · intro cfg hcfg
            rcases List.mem_cons.mp hcfg with hcfg | hcfg
            · rw [hcfg]
              exact hfs.2
            · exact btBitSet_mono _ _ _ _ _ _ heqv cfg.1 cfg.2
                (hbits cfg hcfg)
    · -- Split
      split at h
      · exact absurd h (by simp)
      · rename_i v heqv
        simp only [Option.some.injEq, Prod.mk.injEq] at h
        rw [← h.2]
        refine ⟨?_, hnd, ?_⟩
        · simp [List.filterMap_cons, zwKey, hck]
        · intro cfg hcfg
          exact btBitSet_mono _ _ _ _ _ _ heqv cfg.1 cfg.2 (hbits cfg hcfg)
      · rename_i v heqv
        have hfs := btHasVisited_false_spec _ _ _ _ _ heqv
        refine ih _ _ _ _ _ h ⟨?_, ?_, ?_⟩
        · simp [List.filterMap_cons, zwKey, hck]
        · refine List.Nodup.cons ?_ hnd
          intro hmem
          have := hbits _ hmem
          rw [this] at hfs
          exact absurd hfs.1 (by simp)
        · intro cfg hcfg
          rcases List.mem_cons.mp hcfg with hcfg | hcfg
          · rw [hcfg]
            exact hfs.2
          · exact btBitSet_mono _ _ _ _ _ _ heqv cfg.1 cfg.2
              (hbits cfg hcfg)
    · -- EmptyLook
      split at h
      · split at h
        · exact absurd h (by simp)
        · rename_i v heqv
          simp only [Option.some.injEq, Prod.mk.injEq] at h
          rw [← h.2]
          refine ⟨?_, hnd, ?_⟩
          · simp [List.filterMap_cons, zwKey, hck]
          · intro cfg hcfg
            exact btBitSet_mono _ _ _ _ _ _ heqv cfg.1 cfg.2
              (hbits cfg hcfg)
        · rename_i v heqv
          have hfs := btHasVisited_false_spec _ _ _ _ _ heqv
          refine ih _ _ _ _ _ h ⟨?_, ?_, ?_⟩
          · simp [List.filterMap_cons, zwKey, hck]
          · refine List.Nodup.cons ?_ hnd
            intro hmem
            have := hbits _ hmem
            rw [this] at hfs
            exact absurd hfs.1 (by simp)
          · intro cfg hcfg
            rcases List.mem_cons.mp hcfg with hcfg | hcfg
            · rw [hcfg]
              exact hfs.2
            · exact btBitSet_mono _ _ _ _ _ _ heqv cfg.1 cfg.2
                (hbits cfg hcfg)
      · simp only [Option.some.injEq, Prod.mk.injEq] at h
        rw [← h.2]
        exact ⟨hck, hnd, hbits⟩
    · -- Bytes
      split at h
      · split at h
        · refine ih _ _ _ _ _ h ⟨?_, hnd, hbits⟩
          simp [List.filterMap_cons, zwKey, hck]
        · simp only [Option.some.injEq, Prod.mk.injEq] at h
          rw [← h.2]
          exact ⟨hck, hnd, hbits⟩
      · simp only [Option.some.injEq, Prod.mk.injEq] at h
        rw [← h.2]
        exact ⟨hck, hnd, hbits⟩
    · exact absurd h (by simp)
    · exact absurd h (by simp)

theorem btLoop_inv (insts : List Inst) (input : List Nat)
    (stepFuel : Nat) :
    ∀ fuel s b s2,
    btLoop insts input stepFuel fuel s = some (b, s2) →
    BtInv input.length s → BtInv input.length s2 := by
  intro fuel
  induction fuel with
  | zero =>
    intro s b s2 h
    simp [btLoop] at h
  | succ fuel ih =>
    intro s b s2 h hinv
    simp only [btLoop] at h
    split at h
    · simp only [Option.some.injEq, Prod.mk.injEq] at h
      rw [← h.2]
      exact hinv
    · split at h
      · exact absurd h (by simp)
      · rename_i s3 heqstep
        simp only [Option.some.injEq, Prod.mk.injEq] at h
        rw [← h.2]
        exact btStep_inv insts input _ _ _ _ _ _ heqstep hinv
      · rename_i s3 heqstep
        exact ih _ _ _ h (btStep_inv insts input _ _ _ _ _ _ heqstep hinv)
    · exact ih _ _ _ h hinv

/-- C4, amended: within one `backtrack` invocation, the visited bit is
consulted exactly after the in-place advances coming from `Save`, `Split`
(to `goto1`) and `EmptyLook` — a successful `Bytes` consumption advances
with `continue` and bypasses the check, and the pushed `Split` alternate
is not checked when popped — and a consulted configuration whose bit was
already set makes `step` return `false` at once, so no configuration is
walked through a zero-width advance twice. -/
theorem btBacktrack_visited_discipline (insts : List Inst)
    (input : List Nat) (stepFuel loopFuel : Nat) (s : BtState)
    (start : Nat) (b : Bool) (s2 : BtState)
    (hinv : BtInv input.length s)
    (h : btBacktrack insts input stepFuel loopFuel s start = some (b, s2)) :
    s2.checked = s2.advanced.filterMap zwKey ∧ s2.followed.Nodup := by
  unfold btBacktrack at h
  have h2 := btLoop_inv insts input stepFuel _ _ _ _ h
    ⟨hinv.1, hinv.2.1, hinv.2.2⟩
  exact ⟨h2.1, h2.2.1⟩

/-- Witness for C4's amended theorem: a full backtracker invocation on the
`ab` program over the input `ab`, whose final instrumentation satisfies
both conclusions. -/
theorem btBacktrack_visited_discipline_witness :
    ((btBacktrack instsAB [97, 98] 20 20
        (btClear instsAB [97, 98]
          { caps := [none, none], jobs := [], visited := [],
            advanced := [], checked := [], followed := [] }) 0).map
      (fun r => (decide (r.2.checked = r.2.advanced.filterMap zwKey),
                 decide r.2.followed.Nodup))) = some (true, true) := by
  rcases hrun : btBacktrack instsAB [97, 98] 20 20
      (btClear instsAB [97, 98]
        { caps := [none, none], jobs := [], visited := [],
          advanced := [], checked := [], followed := [] }) 0
      with _ | ⟨b, s2⟩
  · exact absurd hrun (by decide)
  · have h2 := btBacktrack_visited_discipline instsAB [97, 98] 20 20 _ 0
      b s2
      ⟨by decide, by decide, by
        intro cfg hcfg
        simp [btClear] at hcfg⟩ hrun
    simp [h2.1, h2.2]

/-- C4, counterexample: running the backtracker's `step` on the `ab`
program over the input `ab` from `(pc = 0, at = 0)`, the walk advances
through a successful `Bytes` consumption into the configuration
`(pc = 2, at = 1)` — whose instruction is `Bytes`, not `Match` — yet that
configuration is never consulted against the visited bitmap, contradicting
the claim that the bit is consulted after every such advance. -/
theorem btStep_bytes_advance_unchecked_cex :
    instsAB.get? 2 = some (.bytes 98 98 3) ∧
    ((btBacktrack instsAB [97, 98] 20 20
        (btClear instsAB [97, 98]
          { caps := [none, none], jobs := [], visited := [],
            advanced := [], checked := [], followed := [] }) 0).map
      (fun r => (r.1, decide ((BtKind.bytes, 2, 1) ∈ r.2.advanced),
                 decide ((2, 1) ∈ r.2.checked))))
      = some (true, true, false) := by
  decide

/-! ## The NFA simulator, src/nfa.rs -/

/-- `Thread` from src/nfa.rs: a pc and its own capture-slot array. -/
structure NThread where
  pc : Nat
  caps : List (Option Nat)
  deriving DecidableEq, Repr

/-- `Threads` from src/nfa.rs: the sparse thread set
`{dense, sparse, size}`. -/
structure NThreads where
  dense : List NThread
  sparse : List Nat
  size : Nat
  deriving DecidableEq, Repr

/-- `Threads::contains` from src/nfa.rs:
`sparse[pc] < size && dense[sparse[pc]].pc == pc` (the second access is
guarded by the first conjunct); `none` models an index panic. -/
def ntContains (t : NThreads) (pc : Nat) : Option Bool :=
  match t.sparse.get? pc with
  | none => none
  | some s =>
    if s < t.size then
      match t.dense.get? s with
      | none => none
      | some th => some (decide (th.pc = pc))
    else some false

/-- `Threads::add` from src/nfa.rs: write `pc` into `dense[size]`
(keeping that slot's caps), point `sparse[pc]` at it, bump `size`, and
return the dense index; `none` models either index panic. -/
def ntAdd (t : NThreads) (pc : Nat) : Option (NThreads × Nat) :=
  match t.dense.get? t.size with
  | none => none
  | some th =>
    if pc < t.sparse.length then
      some ({ dense := t.dense.set t.size { th with pc := pc },
              sparse := t.sparse.set pc t.size,
              size := t.size + 1 }, t.size)
    else none

/-- The capture copy loop
`for (slot, val) in dst.iter_mut().zip(src.iter())`: overwrite the first
`min (dst.length) (src.length)` cells of `dst` with `src`. -/
def copyCapsInto (dst src : List (Option Nat)) : List (Option Nat) :=
  dst.mapIdx (fun i v => (src.get? i).getD v)

/-- `Nfa::add` from src/nfa.rs: the epsilon closure.  Skip if the list
already contains `pc`; insert `pc`; then resolve `EmptyLook` (recurse when
the assertion holds), `Save` (write the slot around the recursion and
restore it afterwards when the slot is in range), `Split` (recurse on
both branches in priority order), and park `Match`/`Char`/`Ranges`/
`Bytes` threads by copying the capture state into the thread's own
array.  `none` models an index panic or fuel exhaustion. -/
def nfaAdd (insts : List Inst) (input : List Nat) :
    Nat → NThreads → List (Option Nat) → Nat → Nat →
    Option (NThreads × List (Option Nat))
  | 0, _, _, _, _ => none
  | fuel + 1, nlist, tcaps, pc, atP =>
    match ntContains nlist pc with
    | none => none
    | some true => some (nlist, tcaps)
    | some false =>
      match ntAdd nlist pc with
      | none => none
      | some (nlist1, ti) =>
        match insts.get? pc with
        | none => none
        | some (.emptyLook look g) =>
            if emptyLookAt look input atP then
              nfaAdd insts input fuel nlist1 tcaps g atP
            else some (nlist1, tcaps)
        | some (.save slot g) =>
            if tcaps.length ≤ slot then
              nfaAdd insts input fuel nlist1 tcaps g atP
            else
              match nfaAdd insts input fuel nlist1
                  (tcaps.set slot (some atP)) g atP with
              | none => none
              | some (nlist2, tcaps2) =>
                  some (nlist2, tcaps2.set slot (tcaps.getD slot none))
        | some (.split g1 g2) =>
            match nfaAdd insts input fuel nlist1 tcaps g1 atP with
            | none => none
            | some (nlist2, tcaps2) =>
                nfaAdd insts input fuel nlist2 tcaps2 g2 atP
        | some _ =>
            match nlist1.dense.get? ti with
            | none => none
            | some th =>
                some ({ nlist1 with
                        dense := nlist1.dense.set ti
                          { th with caps := copyCapsInto th.caps tcaps } },
                      tcaps)

/-- C10: `Nfa::add` leaves the caller's `thread_caps` array unchanged —
the `Save` branch temporarily writes a slot but restores the old value
after recursing, so sibling branches of a `Split` see independent capture
states. -/
theorem nfaAdd_preserves_thread_caps (insts : List Inst)
    (input : List Nat) :
    ∀ fuel nlist tcaps pc atP nlist2 tcaps2,
    nfaAdd insts input fuel nlist tcaps pc atP = some (nlist2, tcaps2) →
    tcaps2 = tcaps := by
  intro fuel
  induction fuel with
  | zero =>
    intro nlist tcaps pc atP nlist2 tcaps2 h
    simp [nfaAdd] at h
  | succ fuel ih =>
    intro nlist tcaps pc atP nlist2 tcaps2 h
    simp only [nfaAdd] at h
    split at h
    · exact absurd h (by simp)
    · -- already in the list
      simp only [Option.some.injEq, Prod.mk.injEq] at h
      exact h.2.symm
    · -- freshly inserted
      split at h
      · exact absurd h (by simp)
      · split at h
        · exact absurd h (by simp)
        · -- EmptyLook
          split at h
          · exact ih _ _ _ _ _ _ h
          · simp only [Option.some.injEq, Prod.mk.injEq] at h
            exact h.2.symm
        · -- Save
          rename_i slot g heq
          split at h
          · exact ih _ _ _ _ _ _ h
          · rename_i hslot
            split at h
            · exact absurd h (by simp)
            · rename_i nl2 tc2 heqrec
              simp only [Option.some.injEq, Prod.mk.injEq] at h
              have hrec := ih _ _ _ _ _ _ heqrec
              rw [← h.2, hrec, List.set_set]
              exact set_getD_self _ _ _ (by omega)
        · -- Split
          split at h
          · exact absurd h (by simp)
          · rename_i nl2 tc2 heqrec
            have h1 := ih _ _ _ _ _ _ heqrec
            have h2 := ih _ _ _ _ _ _ h
            rw [h2, h1]
        · -- park the thread
          split at h
          · exact absurd h (by simp)
          · simp only [Option.some.injEq, Prod.mk.injEq] at h
            exact h.2.symm

/-- Witness for C10 at a concrete closure: adding the epsilon closure of
pc 0 of the `ab` program (which passes through a `Save` write) returns the
thread-caps array exactly as it went in. -/
theorem nfaAdd_preserves_thread_caps_witness :
    ((nfaAdd instsAB [97, 98] 10
        { dense := List.replicate 5 { pc := 0, caps := [none, none] },
          sparse := List.replicate 5 0, size := 0 }
        [none, none] 0 0).map (fun r => decide (r.2 = [none, none])))
      = some true := by
  rcases hrun : nfaAdd instsAB [97, 98] 10
      { dense := List.replicate 5 { pc := 0, caps := [none, none] },
        sparse := List.replicate 5 0, size := 0 }
      [none, none] 0 0 with _ | ⟨nl2, tc2⟩
  · exact absurd hrun (by decide)
  · have h2 := nfaAdd_preserves_thread_caps instsAB [97, 98]
      10 _ _ _ _ _ _ hrun
    simp [h2]

/-- `Nfa::step` from src/nfa.rs over a byte input.  `Match` copies the
thread's captures into the caller's and reports a match; `Bytes` feeds the
closure of `goto` at `at_next` when the current byte is in range;
`EmptyLook`, `Save` and `Split` are never live here and do nothing.
A `Char` or `Ranges` instruction calls `at.char()` on a byte position,
which is `unreachable!()` in src/input.rs — modelled as `none`.
Returns (matched, nlist, caps, thread_caps). -/
def nfaStep (insts : List Inst) (input : List Nat) (addFuel : Nat)
    (nlist : NThreads) (caps tcaps : List (Option Nat))
    (pc atP atNext : Nat) :
    Option (Bool × NThreads × List (Option Nat) × List (Option Nat)) :=
  match insts.get? pc with
  | none => none
  | some .matchI => some (true, nlist, copyCapsInto caps tcaps, tcaps)
  | some (.char _ _) => none
  | some (.ranges _ _) => none
  | some (.bytes lo hi g) =>
      match input.get? atP with
      | some b =>
          if instBytesMatches lo hi b then
            match nfaAdd insts input addFuel nlist tcaps g atNext with
            | none => none
            | some (nlist2, tcaps2) => some (false, nlist2, caps, tcaps2)
          else some (false, nlist, caps, tcaps)
      | none => some (false, nlist, caps, tcaps)
  | some _ => some (false, nlist, caps, tcaps)

/-- The `for i in 0..clist.size` loop of `Nfa::exec_`: run `step` on each
parked thread in priority order, stopping at the first match.  `rem` is
the number of threads still to visit, `i` the current index.  The
thread's capture array is written back after each step (the source holds
a mutable borrow of it). -/
def nfaInner (insts : List Inst) (input : List Nat) (addFuel : Nat) :
    Nat → NThreads → NThreads → List (Option Nat) → Nat → Nat → Nat →
    Option (Bool × NThreads × NThreads × List (Option Nat))
  | 0, clist, nlist, caps, _, _, _ => some (false, clist, nlist, caps)
  | rem + 1, clist, nlist, caps, i, atP, atNext =>
    match clist.dense.get? i with
    | none => none
    | some th =>
      match nfaStep insts input addFuel nlist caps th.caps th.pc atP
          atNext with
      | none => none
      | some (matched, nlist2, caps2, tcaps2) =>
          let clist2 := { clist with
                          dense := clist.dense.set i
                            { th with caps := tcaps2 } }
          if matched then some (true, clist2, nlist2, caps2)
          else nfaInner insts input addFuel rem clist2 nlist2 caps2
                 (i + 1) atP atNext

/-- One record of the instrumented NFA main loop, observed at the thread
seeding point of an iteration: the size of `clist` there, the `matched`
flag, and whether a thread at pc 0 was added. -/
structure NfaIterRec where
  sizeBefore : Nat
  matchedBefore : Bool
  added : Bool
  deriving DecidableEq, Repr

/-- The main loop of `Nfa::exec_` from src/nfa.rs over a byte input, with
an observational trace of the seeding decisions (newest record first).
When `clist` is empty the loop bails out on a previous match or on an
anchored program past the beginning; with a non-empty prefix machine it
then calls `input.prefix_at`, which for the byte input reader is
`unimplemented!()` in src/input.rs — modelled as `none`.  A thread at
pc 0 is seeded when `clist.size == 0 || (!anchored_begin && !matched)`,
passing the caller's `caps` as the closure's capture array.  After the
thread sweep the loop stops on a match when no captures were requested,
stops at the end of input (`is_end` is `pos == input.len()`, per the
spec's note), and otherwise advances one byte and swaps the lists. -/
def nfaLoop (insts : List Inst) (input : List Nat) (anchored : Bool)
    (prefEmpty : Bool) (addFuel : Nat) :
    Nat → NThreads → NThreads → List (Option Nat) → Bool → Nat →
    List NfaIterRec →
    Option (Bool × List (Option Nat) × List NfaIterRec)
  | 0, _, _, _, _, _, _ => none
  | fuel + 1, clist, nlist, caps, matched, atP, trace =>
    if clist.size = 0 ∧ (matched ∨ (¬ (atP = 0) ∧ anchored = true)) then
      some (matched, caps, trace)
    else if clist.size = 0 ∧ prefEmpty = false then
      none
    else
      let doAdd := clist.size = 0 ∨ (anchored = false ∧ matched = false)
      let rec1 : NfaIterRec :=
        { sizeBefore := clist.size, matchedBefore := matched,
          added := decide doAdd }
      match (if doAdd then nfaAdd insts input addFuel clist caps 0 atP
             else some (clist, caps)) with
      | none => none
      | some (clist2, caps2) =>
        match nfaInner insts input addFuel clist2.size clist2 nlist caps2
            0 atP (atP + 1) with
        | none => none
        | some (m2, clist3, nlist2, caps3) =>
          if m2 ∧ caps3.length = 0 then
            some (true, caps3, rec1 :: trace)
          else if atP = input.length then
            some (matched || m2, caps3, rec1 :: trace)
          else
            nfaLoop insts input anchored prefEmpty addFuel fuel nlist2
              { clist3 with size := 0 } caps3 (matched || m2) (atP + 1)
              (rec1 :: trace)

/-- `num_captures` from src/program.rs: half the highest `Save` slot
bound. -/
def numCapturesOf (insts : List Inst) : Nat :=
  (insts.foldl
    (fun n i =>
      match i with
      | .save slot _ => max n (slot + 1)
      | _ => n) 0) / 2

/-- `Nfa::exec` / `Nfa::exec_` from src/nfa.rs over a byte input: size the
two thread lists to the program (`resize`), then run the main loop from
`start` with no match recorded. -/
def nfaExec (prog : Program) (input : List Nat)
    (caps : List (Option Nat)) (start : Nat) (addFuel loopFuel : Nat) :
    Option (Bool × List (Option Nat) × List NfaIterRec) :=
  let n := prog.insts.length
  let ncaps := numCapturesOf prog.insts
  let fresh : NThreads :=
    { dense := List.replicate n
        { pc := 0, caps := List.replicate (2 * ncaps) none },
      sparse := List.replicate n 0, size := 0 }
  nfaLoop prog.insts input prog.anchored_begin prog.prefixes.isEmptyL
    addFuel loopFuel fresh fresh caps false start []

theorem nfaLoop_seed_guard (insts : List Inst) (input : List Nat)
    (anchored prefEmpty : Bool) (addFuel : Nat) :
    ∀ fuel clist nlist caps matched atP trace b caps2 trace2,
    nfaLoop insts input anchored prefEmpty addFuel fuel clist nlist caps
      matched atP trace = some (b, caps2, trace2) →
    (∀ r ∈ trace, r.added =
      (!r.matchedBefore && (!anchored || decide (r.sizeBefore = 0)))) →
    ∀ r ∈ trace2, r.added =
      (!r.matchedBefore && (!anchored || decide (r.sizeBefore = 0))) := by
  intro fuel
  induction fuel with
  | zero =>
    intro clist nlist caps matched atP trace b caps2 trace2 h
    simp [nfaLoop] at h
  | succ fuel ih =>
    intro clist nlist caps matched atP trace b caps2 trace2 h htr
    simp only [nfaLoop] at h
    split at h
    · simp only [Option.some.injEq, Prod.mk.injEq] at h
      rw [← h.2.2]
      exact htr
    · split at h
      · exact absurd h (by simp)
      · rename_i hbail hpref
        have hrec : (decide (clist.size = 0 ∨
              (anchored = false ∧ matched = false)) : Bool) =
            (!matched && (!anchored || decide (clist.size = 0))) := by
          by_cases hsz : clist.size = 0
          · cases hma : matched
            · simp [hsz, hma]
            · exact absurd ⟨hsz, Or.inl hma⟩ hbail
          · cases hma : matched <;> cases han : anchored <;>
              simp [hsz, hma, han]
        split at h
        · exact absurd h (by simp)
        · split at h
          · exact absurd h (by simp)
          · split at h
            · simp only [Option.some.injEq, Prod.mk.injEq] at h
              rw [← h.2.2]
              intro r hr
              rcases List.mem_cons.mp hr with hr | hr
              · rw [hr]
                exact hrec
              · exact htr r hr
            · split at h
              · simp only [Option.some.injEq, Prod.mk.injEq] at h
                rw [← h.2.2]
                intro r hr
                rcases List.mem_cons.mp hr with hr | hr
                · rw [hr]
                  exact hrec
                · exact htr r hr
              · refine ih _ _ _ _ _ _ _ _ _ h ?_
                intro r hr
                rcases List.mem_cons.mp hr with hr | hr
                · rw [hr]
                  exact hrec
                · exact htr r hr

/-- C5, amended: in every completed iteration of the NFA simulator's main
loop, a new thread at pc 0 carrying the current position is added to
`clist` exactly when no match has been found yet and either the program is
not anchored at the beginning or `clist` is empty (the emptiness
disjunct is what seeds the initial thread of an anchored program at the
starting position). -/
theorem nfaExec_seed_guard (prog : Program) (input : List Nat)
    (caps : List (Option Nat)) (start addFuel loopFuel : Nat) (b : Bool)
    (caps2 : List (Option Nat)) (trace : List NfaIterRec)
    (h : nfaExec prog input caps start addFuel loopFuel
      = some (b, caps2, trace)) :
    ∀ r ∈ trace, r.added =
      (!r.matchedBefore &&
        (!prog.anchored_begin || decide (r.sizeBefore = 0))) := by
  unfold nfaExec at h
  exact nfaLoop_seed_guard prog.insts input prog.anchored_begin
    prog.prefixes.isEmptyL addFuel loopFuel _ _ _ _ _ _ _ _ _ h
    (by intro r hr; exact absurd hr (by simp))

/-- The byte program compiled from the anchored pattern `^a`:
`[Save(0), EmptyLook(StartText), Bytes(a,a), Save(1), Match]`,
with its prefixes and anchor flag computed as `Program::new` does. -/
def instsAnch : List Inst :=
  [.save 0 1, .emptyLook .startText 2, .bytes 97 97 3, .save 1 4, .matchI]

def progAnch : Program :=
  { insts := instsAnch,
    prefixes := ((buildPrefixesLiterals instsAnch 10 10).getD
      AlternateLiterals.emptyA).intoMatcher,
    anchored_begin := anchoredBeginOf instsAnch,
    engine := none }

/-- Witness for C5's amended theorem: the run of the NFA on the anchored
program `^a` over the input `a`, whose whole trace satisfies the amended
guard. -/
theorem nfaExec_seed_guard_witness :
    ((nfaExec progAnch [97] [none, none] 0 20 20).map
      (fun r => decide (∀ rec ∈ r.2.2, rec.added =
        (!rec.matchedBefore &&
          (!progAnch.anchored_begin || decide (rec.sizeBefore = 0))))))
      = some true := by
  rcases hrun : nfaExec progAnch [97] [none, none] 0 20 20
      with _ | ⟨b, caps2, trace⟩
  · exact absurd hrun (by decide)
  · have h2 := nfaExec_seed_guard progAnch [97] [none, none] 0 20 20
      b caps2 trace hrun
    simp only [Option.map_some', Option.some.injEq, decide_eq_true_eq]
    exact h2

/-- The first-iteration trace record of an anchored run that seeds a
thread: empty `clist`, no match yet, thread added. -/
def anchSeedRec : NfaIterRec :=
  { sizeBefore := 0, matchedBefore := false, added := true }

/-- C5, counterexample: on the anchored program `^a` over the input `a`,
the first iteration of the NFA main loop seeds a thread at pc 0 (the
trace contains the record `anchSeedRec`: `sizeBefore = 0`,
`matchedBefore = false`, `added = true`) even though the program is
anchored at the beginning — the claim "added exactly when no match has
been found yet and the program is not anchored" predicts no seeding
anywhere in this run. -/
theorem nfa_seed_anchored_cex :
    progAnch.anchored_begin = true ∧
    ((nfaExec progAnch [97] [none, none] 0 20 20).map
      (fun r => decide (anchSeedRec ∈ r.2.2))) = some true := by
  decide

/-! ## C1: backtracker versus NFA on a byte program with prefixes -/

/-- The program for `ab` with its real prefix machine, as `Program::new`
builds it: the extractor yields the single literal `ab`, classified as a
`Single` (Boyer-Moore-Horspool) matcher, so the prefix set is non-empty. -/
def progABPfx : Program :=
  { insts := instsAB,
    prefixes := ((buildPrefixesLiterals instsAB 10 10).getD
      AlternateLiterals.emptyA).intoMatcher,
    anchored_begin := anchoredBeginOf instsAB,
    engine := none }

/-- C1, divergence at the failing input: the program compiled from `ab`
(5 instructions, far under the 100-instruction bound) on the 2-byte input
`xx` (far under the 256 KiB bound) at start offset 0.  `Backtrack::exec`
returns `false` with the capture vector untouched, but `Nfa::exec` hits
the first iteration of its main loop with an empty `clist` and a
non-empty prefix machine and calls `input.prefix_at`, which for the byte
input reader is `unimplemented!()` in src/input.rs — a panic (`none`),
not a boolean.  The two engines therefore do not return the same boolean
on this program and input, contradicting the claim. -/
theorem nfa_byte_prefix_unimplemented_cb :
    progABPfx.insts.length ≤ 100 ∧
    progABPfx.prefixes.isEmptyL = false ∧
    nfaExec progABPfx [120, 120] [none, none] 0 20 20 = none ∧
    ((btExec progABPfx [120, 120] [none, none] 0 20 20 10).map
      (fun r => (r.1, r.2.caps))) = some (false, [none, none]) := by
  decide
